import Mathlib

/-!
Verification development for the ODSC-West-2022 MPI/DeepSpeed tutorial
repository.  The repository's specification describes a minimal
standalone partitioned-optimizer training loop (the ZeRO-style
partitioning contract its configuration files parameterize); the
repository itself ships only tutorial notebooks, so the four components
(Partition Planner, Gradient Reducer, Optimizer State Store, Parameter
Gatherer) are modelled here from the specification text, while the
notebook code snippets (environment-variable handling for
`local_rank` / `world_size`) are embedded from the source notebooks.
-/

/-- A named, ordered tensor of floating-point values, represented by its
name and element count (the Partition Planner's input per the spec:
ordered list of parameters, each with element count). -/
structure Parameter where
  name : String
  numel : Nat
deriving DecidableEq

/-- A contiguous slice of the flattened parameter/gradient/optimizer-state
values, given by its start offset and length. -/
structure Partition where
  start : Nat
  len : Nat
deriving DecidableEq

/-- Error raised when world_size ≤ 0 or the parameter list is empty. -/
inductive ConfigError where
  | ConfigurationError
deriving DecidableEq

/-- Element counts of an ordered parameter list. -/
def paramSizes (params : List Parameter) : List Nat :=
  params.map Parameter.numel

/-- Total number of scalar elements in the flattened concatenation of all
parameters. -/
def totalNumel (params : List Parameter) : Nat :=
  (paramSizes params).sum

/-- Modelled from the spec: start offset of rank `r`'s contiguous slice in
the balanced contiguous split of `n` flattened elements over `w` ranks
(each rank receives `n / w` elements, and the first `n % w` ranks receive
one extra element). -/
def partStart (n w r : Nat) : Nat :=
  r * (n / w) + min r (n % w)

/-- Modelled from the spec: length of rank `r`'s contiguous slice in the
balanced contiguous split of `n` flattened elements over `w` ranks. -/
def partLen (n w r : Nat) : Nat :=
  n / w + (if r < n % w then 1 else 0)

/-- The list of per-rank contiguous slices for `n` elements over `w`
ranks. -/
def planRanges (n w : Nat) : List Partition :=
  (List.range w).map (fun r => ⟨partStart n w r, partLen n w r⟩)

/-- Modelled from the spec: the Partition Planner (§4.1).  Given the
ordered parameter list and the world size it computes the deterministic,
contiguous, balanced partition assignment, failing with
`ConfigurationError` if `world_size ≤ 0` or the parameter list is
empty. -/
def planPartitions (params : List Parameter) (world_size : Int) :
    Except ConfigError (List Partition) :=
  if world_size ≤ 0 ∨ params = [] then
    .error .ConfigurationError
  else
    .ok (planRanges (totalNumel params) world_size.toNat)

/-- A partition owns flattened element index `i` when `i` lies in its
contiguous range. -/
def owns (p : Partition) (i : Nat) : Prop :=
  p.start ≤ i ∧ i < p.start + p.len

instance (p : Partition) (i : Nat) : Decidable (owns p i) :=
  inferInstanceAs (Decidable (_ ∧ _))

theorem partStart_zero (n w : Nat) : partStart n w 0 = 0 := by
  simp [partStart]

theorem partStart_succ (n w r : Nat) :
    partStart n w (r + 1) = partStart n w r + partLen n w r := by
  unfold partStart partLen
  rw [Nat.succ_mul]
  rcases Nat.lt_or_ge r (n % w) with h | h
  · rw [if_pos h, Nat.min_eq_left (Nat.le_of_lt h),
      Nat.min_eq_left (Nat.succ_le_of_lt h)]
    omega
  · rw [if_neg (Nat.not_lt.mpr h), Nat.min_eq_right h,
      Nat.min_eq_right (Nat.le_trans h (Nat.le_succ r))]
    omega

theorem partStart_top (n w : Nat) (hw : 0 < w) : partStart n w w = n := by
  unfold partStart
  rw [Nat.min_eq_right (Nat.le_of_lt (Nat.mod_lt n hw))]
  exact Nat.div_add_mod n w

theorem partStart_mono (n w : Nat) {r s : Nat} (h : r ≤ s) :
    partStart n w r ≤ partStart n w s := by
  unfold partStart
  exact Nat.add_le_add (Nat.mul_le_mul_right _ h) (min_le_min h (Nat.le_refl _))

/-- Every flattened index below the cumulative boundary `partStart n w k`
falls in the range of some rank below `k`. -/
theorem exists_owner_aux (n w : Nat) :
    ∀ k, ∀ i, i < partStart n w k →
      ∃ r, r < k ∧ partStart n w r ≤ i ∧ i < partStart n w (r + 1) := by
  intro k
  induction k with
  | zero =>
    intro i hi
    rw [partStart_zero] at hi
    exact absurd hi (Nat.not_lt_zero i)
  | succ k ih =>
    intro i hi
    rcases Nat.lt_or_ge i (partStart n w k) with h | h
    · obtain ⟨r, hr, h1, h2⟩ := ih i h
      exact ⟨r, Nat.lt_succ_of_lt hr, h1, h2⟩
    · exact ⟨k, Nat.lt_succ_self k, h, hi⟩

/-- At most one rank's range contains a given flattened index. -/
theorem owner_unique (n w : Nat) {r s i : Nat}
    (hr : partStart n w r ≤ i ∧ i < partStart n w (r + 1))
    (hs : partStart n w s ≤ i ∧ i < partStart n w (s + 1)) : r = s := by
  by_contra hne
  rcases Nat.lt_or_ge r s with h | h
  · have hle : partStart n w (r + 1) ≤ partStart n w s :=
      partStart_mono n w h
    omega
  · have h' : s < r := Nat.lt_of_le_of_ne h (fun e => hne e.symm)
    have hle : partStart n w (s + 1) ≤ partStart n w r :=
      partStart_mono n w h'
    omega

/-- A successful plan means `world_size` was positive, the parameter list
non-empty, and the result is the balanced contiguous split. -/
theorem planPartitions_ok (params : List Parameter) (world_size : Int)
    (parts : List Partition)
    (hplan : planPartitions params world_size = .ok parts) :
    0 < world_size.toNat ∧
      parts = planRanges (totalNumel params) world_size.toNat := by
  unfold planPartitions at hplan
  by_cases hc : world_size ≤ 0 ∨ params = []
  · rw [if_pos hc] at hplan
    exact Except.noConfusion hplan
  · rw [if_neg hc] at hplan
    push_neg at hc
    refine ⟨by omega, ?_⟩
    exact (Except.ok.inj hplan).symm

theorem planRanges_length (n w : Nat) : (planRanges n w).length = w := by
  simp [planRanges]

theorem planRanges_getD (n w r : Nat) (h : r < w) :
    (planRanges n w).getD r ⟨0, 0⟩ = ⟨partStart n w r, partLen n w r⟩ := by
  simp [planRanges, List.getD_eq_getElem?_getD, List.getElem?_map,
    List.getElem?_range, h]

/-- The scenario input from the spec: four parameters of ten elements
each. -/
def demoParams : List Parameter :=
  [⟨"p0", 10⟩, ⟨"p1", 10⟩, ⟨"p2", 10⟩, ⟨"p3", 10⟩]

/-- The expected split of the forty flattened elements over two ranks. -/
def demoParts : List Partition := [⟨0, 20⟩, ⟨20, 20⟩]

/-- C1: for every world_size ≥ 1 and every non-empty ordered parameter
list (i.e. whenever the Partition Planner succeeds), the ranks'
partitions are pairwise disjoint and their union covers the full
flattened range exactly once: every flattened index below the total
element count is owned by exactly one rank, and every owned index lies
below the total element count. -/
theorem partition_planner_disjoint_cover (params : List Parameter)
    (world_size : Int) (parts : List Partition)
    (hplan : planPartitions params world_size = .ok parts) :
    (∀ i, i < totalNumel params →
      ∃ r, r < parts.length ∧ owns (parts.getD r ⟨0, 0⟩) i ∧
        ∀ s, s < parts.length → owns (parts.getD s ⟨0, 0⟩) i → s = r) ∧
    (∀ s, s < parts.length → ∀ i, owns (parts.getD s ⟨0, 0⟩) i →
      i < totalNumel params) := by
  obtain ⟨hw, hparts⟩ := planPartitions_ok params world_size parts hplan
  subst hparts
  constructor
  · intro i hi
    rw [← partStart_top (totalNumel params) world_size.toNat hw] at hi
    obtain ⟨r, hr, h1, h2⟩ := exists_owner_aux _ _ _ i hi
    refine ⟨r, ?_, ?_, ?_⟩
    · rw [planRanges_length]
      exact hr
    · rw [planRanges_getD _ _ _ hr]
      exact ⟨h1, by rw [← partStart_succ]; exact h2⟩
    · intro s hs hsowns
      rw [planRanges_length] at hs
      rw [planRanges_getD _ _ _ hs] at hsowns
      exact owner_unique _ _
        ⟨hsowns.1, by rw [partStart_succ]; exact hsowns.2⟩ ⟨h1, h2⟩
  · intro s hs i howns
    rw [planRanges_length] at hs
    rw [planRanges_getD _ _ _ hs] at howns
    have h2 : i < partStart (totalNumel params) world_size.toNat (s + 1) := by
      rw [partStart_succ]
      exact howns.2
    have h3 : partStart (totalNumel params) world_size.toNat (s + 1) ≤
        partStart (totalNumel params) world_size.toNat world_size.toNat :=
      partStart_mono _ _ hs
    rw [partStart_top _ _ hw] at h3
    omega

theorem partition_planner_disjoint_cover_witness :
    ∃ r, r < demoParts.length ∧ owns (demoParts.getD r ⟨0, 0⟩) 25 ∧
      ∀ s, s < demoParts.length → owns (demoParts.getD s ⟨0, 0⟩) 25 → s = r :=
  (partition_planner_disjoint_cover demoParams 2 demoParts rfl).1 25 (by decide)

/-- C5: the Partition Planner fails with `ConfigurationError` exactly when
world_size ≤ 0 or the parameter list is empty, and this failure produces
no partition assignment (no partial start). -/
theorem configuration_error_iff (params : List Parameter) (world_size : Int) :
    (planPartitions params world_size = .error .ConfigurationError ↔
      world_size ≤ 0 ∨ params = []) ∧
    (planPartitions params world_size = .error .ConfigurationError →
      ∀ parts, planPartitions params world_size ≠ .ok parts) := by
  constructor
  · constructor
    · intro h
      by_contra hc
      unfold planPartitions at h
      rw [if_neg hc] at h
      exact Except.noConfusion h
    · intro h
      unfold planPartitions
      rw [if_pos h]
  · intro h parts hok
    rw [h] at hok
    exact Except.noConfusion hok

theorem configuration_error_iff_witness :
    planPartitions [] 2 = .error .ConfigurationError ∧
    planPartitions demoParams (-1) = .error .ConfigurationError :=
  ⟨(configuration_error_iff [] 2).1.mpr (Or.inr rfl),
   (configuration_error_iff demoParams (-1)).1.mpr (Or.inl (by decide))⟩

/-- Cumulative element offsets at which one parameter ends and the next
begins (including 0 and the total). -/
def paramBoundaries (params : List Parameter) : List Nat :=
  (List.range (params.length + 1)).map
    (fun k => ((paramSizes params).take k).sum)

/-- Every rank boundary of the split falls on a parameter boundary: no
rank boundary falls mid-parameter. -/
def alignedSplit (params : List Parameter) (parts : List Partition) : Prop :=
  ∀ p ∈ parts,
    p.start ∈ paramBoundaries params ∧
    p.start + p.len ∈ paramBoundaries params

instance (params : List Parameter) (parts : List Partition) :
    Decidable (alignedSplit params parts) :=
  List.decidableBAll _ parts

/-- C6: for world_size = 2 and four parameters of element counts
[10,10,10,10], the Partition Planner assigns rank 0 the first 20
flattened elements and rank 1 the last 20, and no rank boundary of this
split falls mid-parameter. -/
theorem demo_partition_scenario :
    planPartitions demoParams 2 = .ok demoParts ∧
    alignedSplit demoParams demoParts :=
  ⟨rfl, by decide⟩

/-- C7: the Partition Planner is deterministic — its output depends only
on the stated inputs (the ordered element counts and the world size), so
two invocations on identical inputs produce the identical rank-to-range
mapping — and in every produced mapping no single scalar element is
assigned to two distinct ranks. -/
theorem planner_deterministic_no_split (ps ps' : List Parameter)
    (world_size : Int) (hsizes : paramSizes ps = paramSizes ps') :
    planPartitions ps world_size = planPartitions ps' world_size ∧
    (∀ parts, planPartitions ps world_size = .ok parts →
      ∀ i r s, r < parts.length → s < parts.length →
        owns (parts.getD r ⟨0, 0⟩) i → owns (parts.getD s ⟨0, 0⟩) i →
        r = s) := by
  have hn : totalNumel ps = totalNumel ps' := by
    unfold totalNumel
    rw [hsizes]
  have hnil : ps = [] ↔ ps' = [] := by
    constructor
    · intro h
      apply List.map_eq_nil_iff.mp
      show paramSizes ps' = []
      rw [← hsizes, h]
      rfl
    · intro h
      apply List.map_eq_nil_iff.mp
      show paramSizes ps = []
      rw [hsizes, h]
      rfl
  constructor
  · by_cases hc : world_size ≤ 0 ∨ ps = []
    · have hc' : world_size ≤ 0 ∨ ps' = [] := by
        rcases hc with h | h
        · exact Or.inl h
        · exact Or.inr (hnil.mp h)
      unfold planPartitions
      rw [if_pos hc, if_pos hc']
    · have hc' : ¬(world_size ≤ 0 ∨ ps' = []) := by
        intro h
        apply hc
        rcases h with h | h
        · exact Or.inl h
        · exact Or.inr (hnil.mpr h)
      unfold planPartitions
      rw [if_neg hc, if_neg hc', hn]
  · intro parts hplan i r s hr hs hro hso
    obtain ⟨hw, hparts⟩ := planPartitions_ok ps world_size parts hplan
    subst hparts
    rw [planRanges_length] at hr hs
    rw [planRanges_getD _ _ _ hr] at hro
    rw [planRanges_getD _ _ _ hs] at hso
    exact owner_unique _ _
      ⟨hro.1, by rw [partStart_succ]; exact hro.2⟩
      ⟨hso.1, by rw [partStart_succ]; exact hso.2⟩

/-- The scenario parameters under different names but identical element
counts. -/
def demoParamsRenamed : List Parameter :=
  [⟨"a0", 10⟩, ⟨"a1", 10⟩, ⟨"a2", 10⟩, ⟨"a3", 10⟩]

theorem planner_deterministic_no_split_witness :
    planPartitions demoParams 2 = planPartitions demoParamsRenamed 2 :=
  (planner_deterministic_no_split demoParams demoParamsRenamed 2 rfl).1

/-- The ZeRO partitioning stage: which state classes are partitioned
(optimizer state only; optimizer state + gradients; optimizer state +
gradients + parameters). -/
inductive Stage where
  | one
  | two
  | three
deriving DecidableEq

/-- Optimizer-state slots per scalar element: first moment, second
moment, and the master (higher-precision) weight copy. -/
def stateSlotsPerElem : Nat := 3

/-- Modelled from the spec: Optimizer State Store (§4.3) memory held by
rank `r` — per-partition moment estimates and master weights exist only
on the owning rank, so rank `r` stores state for exactly its own
partition's elements, in every stage (all three stages partition the
optimizer state). -/
def optStateSize (_stage : Stage) (parts : List Partition) (r : Nat) : Nat :=
  stateSlotsPerElem * (parts.getD r ⟨0, 0⟩).len

/-- The per-rank slice lengths of the balanced split sum to the total
element count boundary. -/
theorem sum_partLen (n w : Nat) :
    ∀ k, ((List.range k).map (partLen n w)).sum = partStart n w k := by
  intro k
  induction k with
  | zero => simp [partStart_zero]
  | succ k ih =>
    rw [List.range_succ, List.map_append, List.sum_append, ih,
      partStart_succ]
    simp

/-- C2: for every stage and every partitioned configuration produced by
the Partition Planner, the optimizer-state storage summed across all
ranks equals exactly one full copy of the optimizer state, and each
rank holds at most `stateSlotsPerElem * (total / world_size + 1)` slots,
i.e. O(total_state_size / world_size) per rank. -/
theorem optimizer_state_one_copy (stage : Stage) (params : List Parameter)
    (world_size : Int) (parts : List Partition)
    (hplan : planPartitions params world_size = .ok parts) :
    ((List.range parts.length).map (optStateSize stage parts)).sum =
      stateSlotsPerElem * totalNumel params ∧
    (∀ r, r < parts.length →
      optStateSize stage parts r ≤
        stateSlotsPerElem * (totalNumel params / world_size.toNat + 1)) := by
  obtain ⟨hw, hparts⟩ := planPartitions_ok params world_size parts hplan
  subst hparts
  rw [planRanges_length]
  constructor
  · have hcongr :
        (List.range world_size.toNat).map
            (optStateSize stage (planRanges (totalNumel params) world_size.toNat)) =
        (List.range world_size.toNat).map
            (fun r => stateSlotsPerElem * partLen (totalNumel params) world_size.toNat r) := by
      apply List.map_congr_left
      intro r hr
      rw [List.mem_range] at hr
      unfold optStateSize
      rw [planRanges_getD _ _ _ hr]
    rw [hcongr, List.sum_map_mul_left, sum_partLen, partStart_top _ _ hw]
  · intro r hr
    unfold optStateSize
    rw [planRanges_getD _ _ _ hr]
    show stateSlotsPerElem * partLen (totalNumel params) world_size.toNat r ≤ _
    apply Nat.mul_le_mul_left
    unfold partLen
    rcases Nat.lt_or_ge r (totalNumel params % world_size.toNat) with h | h
    · rw [if_pos h]
    · rw [if_neg (Nat.not_lt.mpr h)]
      omega

theorem optimizer_state_one_copy_witness :
    ((List.range demoParts.length).map (optStateSize .two demoParts)).sum =
      stateSlotsPerElem * totalNumel demoParams ∧
    (∀ r, r < demoParts.length →
      optStateSize .two demoParts r ≤
        stateSlotsPerElem * (totalNumel demoParams / (2 : Int).toNat + 1)) :=
  optimizer_state_one_copy .two demoParams 2 demoParts rfl

/-- Pointwise addition of two gradient buffers. -/
def elementwiseAdd (a b : List ℚ) : List ℚ :=
  List.zipWith (· + ·) a b

/-- Accumulate all ranks' gradient contributions into one buffer of `n`
flattened elements, in rank order (the all-reduce accumulation). -/
def accumulate (n : Nat) (grads : List (List ℚ)) : List ℚ :=
  grads.foldl elementwiseAdd (List.replicate n 0)

/-- The configured reduction. -/
inductive Reduction where
  | sum
  | mean
deriving DecidableEq

/-- Final combine of the configured reduction: the plain sum of the
contributions, or their mean over the world size. -/
def applyReduction (red : Reduction) (world : Nat) (x : ℚ) : ℚ :=
  match red with
  | .sum => x
  | .mean => x / (world : ℚ)

/-- The full reduced gradient over `n` flattened elements. -/
def reduceGradients (red : Reduction) (world n : Nat)
    (grads : List (List ℚ)) : List ℚ :=
  (accumulate n grads).map (applyReduction red world)

/-- Where rank `r` finds the reduced value of the `j`-th element of its
own partition in the buffer it holds after reduction: at the global
offset under stage 1 (it holds the full reduced gradient), at the local
offset under stage ≥ 2 (it holds only its own slice). -/
def heldIndex (stage : Stage) (n world r j : Nat) : Nat :=
  match stage with
  | .one => partStart n world r + j
  | .two => j
  | .three => j

/-- Modelled from the spec: Gradient Reducer (§4.2).  All-reduce the
per-rank gradient contributions, then scatter: under stage 1 rank `r`
keeps the full reduced gradient, under stage ≥ 2 it keeps only the
slice of the reduced gradient that its own partition covers. -/
def heldGradient (stage : Stage) (red : Reduction) (n world : Nat)
    (grads : List (List ℚ)) (r : Nat) : List ℚ :=
  match stage with
  | .one => reduceGradients red world n grads
  | .two =>
    ((reduceGradients red world n grads).drop (partStart n world r)).take
      (partLen n world r)
  | .three =>
    ((reduceGradients red world n grads).drop (partStart n world r)).take
      (partLen n world r)

theorem elementwiseAdd_getD (a b : List ℚ) (i : Nat)
    (ha : i < a.length) (hb : i < b.length) :
    (elementwiseAdd a b).getD i 0 = a.getD i 0 + b.getD i 0 := by
  have hlen : i < (elementwiseAdd a b).length := by
    unfold elementwiseAdd
    rw [List.length_zipWith]
    omega
  rw [List.getD_eq_getElem _ _ hlen, List.getD_eq_getElem _ _ ha,
    List.getD_eq_getElem _ _ hb]
  unfold elementwiseAdd
  rw [List.getElem_zipWith]

theorem foldl_add_length (n : Nat) (grads : List (List ℚ)) :
    ∀ acc : List ℚ, acc.length = n → (∀ g ∈ grads, g.length = n) →
      (grads.foldl elementwiseAdd acc).length = n := by
  induction grads with
  | nil =>
    intro acc ha _
    simpa using ha
  | cons g gs ih =>
    intro acc ha hg
    rw [List.foldl_cons]
    apply ih
    · unfold elementwiseAdd
      rw [List.length_zipWith, ha, hg g (List.mem_cons_self g gs)]
      exact Nat.min_self n
    · intro g' hg'
      exact hg g' (List.mem_cons_of_mem g hg')

theorem foldl_add_getD (n i : Nat) (hi : i < n) (grads : List (List ℚ)) :
    ∀ acc : List ℚ, acc.length = n → (∀ g ∈ grads, g.length = n) →
      (grads.foldl elementwiseAdd acc).getD i 0 =
        acc.getD i 0 + (grads.map (fun g => g.getD i 0)).sum := by
  induction grads with
  | nil =>
    intro acc _ _
    simp
  | cons g gs ih =>
    intro acc ha hg
    have hacc : (elementwiseAdd acc g).length = n := by
      unfold elementwiseAdd
      rw [List.length_zipWith, ha, hg g (List.mem_cons_self g gs)]
      exact Nat.min_self n
    rw [List.foldl_cons,
      ih (elementwiseAdd acc g) hacc (fun g' h => hg g' (List.mem_cons_of_mem g h)),
      elementwiseAdd_getD acc g i (by omega)
        (by rw [hg g (List.mem_cons_self g gs)]; omega),
      List.map_cons, List.sum_cons]
    ring

theorem accumulate_length (n : Nat) (grads : List (List ℚ))
    (h : ∀ g ∈ grads, g.length = n) : (accumulate n grads).length = n :=
  foldl_add_length n grads (List.replicate n 0) (List.length_replicate n 0) h

theorem accumulate_getD (n : Nat) (grads : List (List ℚ)) (i : Nat)
    (hi : i < n) (h : ∀ g ∈ grads, g.length = n) :
    (accumulate n grads).getD i 0 = (grads.map (fun g => g.getD i 0)).sum := by
  unfold accumulate
  rw [foldl_add_getD n i hi grads (List.replicate n 0) (List.length_replicate n 0) h,
    List.getD_eq_getElem _ _ (by simpa using hi), List.getElem_replicate,
    zero_add]

theorem reduceGradients_length (red : Reduction) (world n : Nat)
    (grads : List (List ℚ)) (h : ∀ g ∈ grads, g.length = n) :
    (reduceGradients red world n grads).length = n := by
  unfold reduceGradients
  rw [List.length_map]
  exact accumulate_length n grads h

theorem reduceGradients_getD (red : Reduction) (world n : Nat)
    (grads : List (List ℚ)) (i : Nat) (hi : i < n)
    (h : ∀ g ∈ grads, g.length = n) :
    (reduceGradients red world n grads).getD i 0 =
      applyReduction red world ((grads.map (fun g => g.getD i 0)).sum) := by
  have hacc : i < (accumulate n grads).length := by
    rw [accumulate_length n grads h]
    exact hi
  unfold reduceGradients
  rw [List.getD_eq_getElem _ _ (by rw [List.length_map]; exact hacc),
    List.getElem_map, ← List.getD_eq_getElem _ _ hacc,
    accumulate_getD n grads i hi h]

theorem slice_length (xs : List ℚ) (s l : Nat) (hsl : s + l ≤ xs.length) :
    ((xs.drop s).take l).length = l := by
  simp only [List.length_take, List.length_drop]
  omega

theorem slice_getD (xs : List ℚ) (s l j : Nat) (hsl : s + l ≤ xs.length)
    (hj : j < l) :
    ((xs.drop s).take l).getD j 0 = xs.getD (s + j) 0 := by
  have h1 : j < ((xs.drop s).take l).length := by
    rw [slice_length xs s l hsl]
    exact hj
  have h2 : s + j < xs.length := by omega
  rw [List.getD_eq_getElem _ _ h1, List.getElem_take, List.getElem_drop,
    ← List.getD_eq_getElem _ _ h2]

/-- C3: after the Gradient Reducer's all-reduce-then-scatter completes,
every rank's owned-partition gradient equals the configured reduction
(sum or mean) of that partition's gradient contributions across all
ranks; under stage ≥ 2 the rank holds exactly its owned slice of the
reduced gradient, while under stage 1 it holds the full reduced
gradient. -/
theorem gradient_reducer_correct (stage : Stage) (red : Reduction)
    (params : List Parameter) (world_size : Int) (parts : List Partition)
    (grads : List (List ℚ)) (r : Nat)
    (hplan : planPartitions params world_size = .ok parts)
    (hr : r < parts.length)
    (hlen : ∀ g ∈ grads, g.length = totalNumel params) :
    parts.getD r ⟨0, 0⟩ =
      ⟨partStart (totalNumel params) world_size.toNat r,
       partLen (totalNumel params) world_size.toNat r⟩ ∧
    (∀ j, j < partLen (totalNumel params) world_size.toNat r →
      (heldGradient stage red (totalNumel params) world_size.toNat grads r).getD
          (heldIndex stage (totalNumel params) world_size.toNat r j) 0 =
        applyReduction red world_size.toNat
          ((grads.map (fun g =>
            g.getD (partStart (totalNumel params) world_size.toNat r + j) 0)).sum)) ∧
    (stage = .one →
      (heldGradient stage red (totalNumel params) world_size.toNat grads r).length =
          totalNumel params ∧
      ∀ i, i < totalNumel params →
        (heldGradient stage red (totalNumel params) world_size.toNat grads r).getD i 0 =
          applyReduction red world_size.toNat
            ((grads.map (fun g => g.getD i 0)).sum)) ∧
    (stage ≠ .one →
      (heldGradient stage red (totalNumel params) world_size.toNat grads r).length =
        partLen (totalNumel params) world_size.toNat r) := by
  obtain ⟨hw, hparts⟩ := planPartitions_ok params world_size parts hplan
  subst hparts
  rw [planRanges_length] at hr
  have hbound : partStart (totalNumel params) world_size.toNat r +
      partLen (totalNumel params) world_size.toNat r ≤ totalNumel params := by
    rw [← partStart_succ]
    calc partStart (totalNumel params) world_size.toNat (r + 1)
        ≤ partStart (totalNumel params) world_size.toNat world_size.toNat :=
          partStart_mono _ _ hr
      _ = totalNumel params := partStart_top _ _ hw
  have hfull : (reduceGradients red world_size.toNat (totalNumel params) grads).length =
      totalNumel params := reduceGradients_length _ _ _ _ hlen
  refine ⟨planRanges_getD _ _ _ hr, ?_, ?_, ?_⟩
  · intro j hj
    have hjn : partStart (totalNumel params) world_size.toNat r + j <
        totalNumel params := by omega
    cases stage with
    | one =>
      simp only [heldGradient, heldIndex]
      exact reduceGradients_getD _ _ _ _ _ hjn hlen
    | two =>
      simp only [heldGradient, heldIndex]
      rw [slice_getD _ _ _ _ (by omega) hj]
      exact reduceGradients_getD _ _ _ _ _ hjn hlen
    | three =>
      simp only [heldGradient, heldIndex]
      rw [slice_getD _ _ _ _ (by omega) hj]
      exact reduceGradients_getD _ _ _ _ _ hjn hlen
  · intro hstage
    subst hstage
    simp only [heldGradient]
    refine ⟨hfull, ?_⟩
    intro i hi
    exact reduceGradients_getD _ _ _ _ _ hi hlen
  · intro hstage
    cases stage with
    | one => exact absurd rfl hstage
    | two =>
      simp only [heldGradient]
      exact slice_length _ _ _ (by omega)
    | three =>
      simp only [heldGradient]
      exact slice_length _ _ _ (by omega)

/-- A small concrete reducer input: two parameters of two elements each. -/
def smallParams : List Parameter := [⟨"a", 2⟩, ⟨"b", 2⟩]

/-- The split of the four flattened elements over two ranks. -/
def smallParts : List Partition := [⟨0, 2⟩, ⟨2, 2⟩]

/-- Concrete per-rank gradient contributions for the small input. -/
def smallGrads : List (List ℚ) := [[1, 2, 3, 4], [10, 20, 30, 40]]

theorem gradient_reducer_correct_witness :
    smallParts.getD 1 ⟨0, 0⟩ =
      ⟨partStart (totalNumel smallParams) (2 : Int).toNat 1,
       partLen (totalNumel smallParams) (2 : Int).toNat 1⟩ ∧
    (∀ j, j < partLen (totalNumel smallParams) (2 : Int).toNat 1 →
      (heldGradient .two .sum (totalNumel smallParams) (2 : Int).toNat smallGrads 1).getD
          (heldIndex .two (totalNumel smallParams) (2 : Int).toNat 1 j) 0 =
        applyReduction .sum (2 : Int).toNat
          ((smallGrads.map (fun g =>
            g.getD (partStart (totalNumel smallParams) (2 : Int).toNat 1 + j) 0)).sum)) ∧
    (Stage.two = .one →
      (heldGradient .two .sum (totalNumel smallParams) (2 : Int).toNat smallGrads 1).length =
          totalNumel smallParams ∧
      ∀ i, i < totalNumel smallParams →
        (heldGradient .two .sum (totalNumel smallParams) (2 : Int).toNat smallGrads 1).getD i 0 =
          applyReduction .sum (2 : Int).toNat
            ((smallGrads.map (fun g => g.getD i 0)).sum)) ∧
    (Stage.two ≠ .one →
      (heldGradient .two .sum (totalNumel smallParams) (2 : Int).toNat smallGrads 1).length =
        partLen (totalNumel smallParams) (2 : Int).toNat 1) :=
  gradient_reducer_correct .two .sum smallParams 2 smallParts smallGrads 1
    rfl (by decide) (by decide)

/-- Numerical failure raised by the Optimizer State Store. -/
inductive StepError where
  | NumericalInstabilityError
deriving DecidableEq

/-- The caller-configured policy for a numerical failure: abort the run,
or skip the optimizer step for that iteration. -/
inductive Policy where
  | abort
  | skipStep
deriving DecidableEq

/-- A computed optimizer-update value, which may be non-finite (the
shallow stand-in for a floating-point NaN or infinity). -/
inductive UpdateVal where
  | fin (q : ℚ)
  | nonfin
deriving DecidableEq

/-- Whether an update value is finite. -/
def UpdateVal.isFinite : UpdateVal → Bool
  | .fin _ => true
  | .nonfin => false

/-- Apply one finite update value to one weight. -/
def applyUpdate (w : ℚ) (u : UpdateVal) : ℚ :=
  match u with
  | .fin d => w - d
  | .nonfin => w

/-- Outcome of one optimizer step over the full (all ranks') weight
vector. -/
structure StepOutcome where
  weights : List ℚ
  error : Option StepError
  terminated : Bool
deriving DecidableEq

/-- Modelled from the spec: Optimizer State Store step (§4.3, §7).  If
the computed update contains a non-finite value on any rank the step
fails with `NumericalInstabilityError`: under policy `abort` the run
terminates with no rank applying the step, under policy `skipStep` the
step is skipped for this iteration with the previous weights preserved.
Otherwise every weight receives its update. -/
def optimizerStep (policy : Policy) (weights : List ℚ)
    (updates : List UpdateVal) : StepOutcome :=
  if updates.all UpdateVal.isFinite then
    ⟨List.zipWith applyUpdate weights updates, none, false⟩
  else
    match policy with
    | .abort => ⟨weights, some .NumericalInstabilityError, true⟩
    | .skipStep => ⟨weights, some .NumericalInstabilityError, false⟩

/-- C4: if the computed optimizer update contains a non-finite value on
any rank, the step fails with `NumericalInstabilityError`; under policy
`abort` the run terminates and under policy `skipStep` it does not, and
in both cases the previous weights are preserved unchanged on every
rank's partition — the weights are never partially updated on error. -/
theorem numerical_instability_handling (policy : Policy) (weights : List ℚ)
    (updates : List UpdateVal) (u : UpdateVal)
    (hu : u ∈ updates) (hfin : u.isFinite = false) :
    (optimizerStep policy weights updates).weights = weights ∧
    (optimizerStep policy weights updates).error =
      some .NumericalInstabilityError ∧
    (policy = .abort → (optimizerStep policy weights updates).terminated = true) ∧
    (policy = .skipStep →
      (optimizerStep policy weights updates).terminated = false) ∧
    (∀ s l, (((optimizerStep policy weights updates).weights.drop s).take l) =
      ((weights.drop s).take l)) := by
  have hall : updates.all UpdateVal.isFinite = false := by
    by_contra hc
    have htrue : updates.all UpdateVal.isFinite = true := by
      cases h : updates.all UpdateVal.isFinite with
      | false => exact absurd h hc
      | true => rfl
    rw [List.all_eq_true] at htrue
    rw [htrue u hu] at hfin
    exact Bool.noConfusion hfin
  unfold optimizerStep
  rw [hall]
  cases policy with
  | abort => exact ⟨rfl, rfl, fun _ => rfl, fun h => Policy.noConfusion h, fun s l => rfl⟩
  | skipStep => exact ⟨rfl, rfl, fun h => Policy.noConfusion h, fun _ => rfl, fun s l => rfl⟩

theorem numerical_instability_handling_witness :
    (optimizerStep .abort [1, 2] [.fin 1, .nonfin]).weights = [1, 2] ∧
    (optimizerStep .abort [1, 2] [.fin 1, .nonfin]).error =
      some .NumericalInstabilityError ∧
    (Policy.abort = .abort →
      (optimizerStep .abort [1, 2] [.fin 1, .nonfin]).terminated = true) ∧
    (Policy.abort = .skipStep →
      (optimizerStep .abort [1, 2] [.fin 1, .nonfin]).terminated = false) ∧
    (∀ s l, (((optimizerStep .abort [1, 2] [.fin 1, .nonfin]).weights.drop s).take l) =
      (([1, 2] : List ℚ).drop s).take l) :=
  numerical_instability_handling .abort [1, 2] [.fin 1, .nonfin] .nonfin
    (by decide) rfl

/-- Events of a stage-3 forward/backward pass over the parameters:
materialize the full tensor of parameter `p`, use it in the consuming
computation (a pure read), and release the temporary copy. -/
inductive GatherEvent where
  | gather (p : Nat)
  | compute (p : Nat)
  | release (p : Nat)
deriving DecidableEq

/-- Modelled from the spec: Parameter Gatherer (§4.4) effect of one event
on the per-parameter count of full materialized copies.  A gather
materializes one more full copy, the consuming computation reads without
writing, and a release frees the temporary copy. -/
def stepGather (copies : List Nat) (e : GatherEvent) : List Nat :=
  match e with
  | .gather p => copies.set p (copies.getD p 0 + 1)
  | .compute _ => copies
  | .release p => copies.set p (copies.getD p 0 - 1)

/-- Run a list of gather events from a memory state. -/
def execEvents (copies : List Nat) : List GatherEvent → List Nat
  | [] => copies
  | e :: es => execEvents (stepGather copies e) es

/-- All memory states visited while running a list of gather events,
including the initial and final states. -/
def traceStates (copies : List Nat) : List GatherEvent → List (List Nat)
  | [] => [copies]
  | e :: es => copies :: traceStates (stepGather copies e) es

/-- Modelled from the spec: the event schedule of a stage-3 pass over
parameters `0, …, k-1` — each parameter is gathered immediately before
its consuming computation and released immediately after it
completes. -/
def passEvents (k : Nat) : List GatherEvent :=
  (List.range k).foldr (fun p acc => .gather p :: .compute p :: .release p :: acc) []

theorem execEvents_append (copies : List Nat) (xs ys : List GatherEvent) :
    execEvents copies (xs ++ ys) = execEvents (execEvents copies xs) ys := by
  induction xs generalizing copies with
  | nil => rfl
  | cons e es ih =>
    rw [List.cons_append]
    exact ih (stepGather copies e)

theorem traceStates_append_mem (copies : List Nat) (xs ys : List GatherEvent)
    (s : List Nat) (hs : s ∈ traceStates copies (xs ++ ys)) :
    s ∈ traceStates copies xs ∨ s ∈ traceStates (execEvents copies xs) ys := by
  induction xs generalizing copies with
  | nil =>
    right
    exact hs
  | cons e es ih =>
    rw [List.cons_append] at hs
    rcases List.mem_cons.mp hs with h | h
    · left
      rw [h]
      exact List.mem_cons_self _ _
    · rcases ih (stepGather copies e) h with h' | h'
      · left
        exact List.mem_cons_of_mem _ h'
      · right
        exact h'

theorem foldr_gcr_append (tail : List GatherEvent) (ps : List Nat) :
    List.foldr (fun p acc => .gather p :: .compute p :: .release p :: acc)
        tail ps =
      List.foldr (fun p acc => .gather p :: .compute p :: .release p :: acc)
        [] ps ++ tail := by
  induction ps with
  | nil => rfl
  | cons p ps ih =>
    rw [List.foldr_cons, List.foldr_cons, ih]
    rfl

theorem passEvents_succ (k : Nat) :
    passEvents (k + 1) = passEvents k ++ [.gather k, .compute k, .release k] := by
  unfold passEvents
  rw [List.range_succ, List.foldr_append]
  exact foldr_gcr_append _ _

theorem getD_zero_of_all_zero (z : List Nat) (p : Nat)
    (hz : ∀ c ∈ z, c = 0) : z.getD p 0 = 0 := by
  by_cases hp : p < z.length
  · rw [List.getD_eq_getElem _ _ hp]
    exact hz _ (List.getElem_mem hp)
  · exact List.getD_eq_default _ _ (Nat.le_of_not_lt hp)

theorem set_zero_of_all_zero (z : List Nat) (p : Nat)
    (hz : ∀ c ∈ z, c = 0) : z.set p 0 = z := by
  by_cases hp : p < z.length
  · apply List.ext_getElem
    · rw [List.length_set]
    · intro i h1 h2
      rw [List.getElem_set]
      split
      · exact (hz _ (List.getElem_mem h2)).symm
      · rfl
  · exact List.set_eq_of_length_le (Nat.le_of_not_lt hp)

/-- Releasing right after gathering restores the all-zero state. -/
theorem gather_release (z : List Nat) (p : Nat) (hz : ∀ c ∈ z, c = 0) :
    (z.set p 1).set p ((z.set p 1).getD p 0 - 1) = z := by
  by_cases hp : p < z.length
  · have h1 : (z.set p 1).getD p 0 = 1 := by
      rw [List.getD_eq_getElem _ _ (by rw [List.length_set]; exact hp),
        List.getElem_set, if_pos rfl]
    rw [h1, List.set_set]
    exact set_zero_of_all_zero z p hz
  · rw [List.set_eq_of_length_le (Nat.le_of_not_lt hp),
      List.set_eq_of_length_le (Nat.le_of_not_lt hp)]

theorem mem_set_cases (l : List Nat) (n a : Nat) :
    ∀ c ∈ l.set n a, c ∈ l ∨ c = a := by
  induction l generalizing n with
  | nil =>
    intro c hc
    simp at hc
  | cons x xs ih =>
    cases n with
    | zero =>
      intro c hc
      rw [List.set_cons_zero] at hc
      rcases List.mem_cons.mp hc with h | h
      · exact Or.inr h
      · exact Or.inl (List.mem_cons_of_mem _ h)
    | succ n =>
      intro c hc
      rw [List.set_cons_succ] at hc
      rcases List.mem_cons.mp hc with h | h
      · exact Or.inl (h ▸ List.mem_cons_self _ _)
      · rcases ih n c h with h' | h'
        · exact Or.inl (List.mem_cons_of_mem _ h')
        · exact Or.inr h'

/-- The gather/compute/release schedule over an arbitrary parameter
processing order. -/
def tripleEvents (ps : List Nat) : List GatherEvent :=
  ps.foldr (fun p acc => .gather p :: .compute p :: .release p :: acc) []

theorem passEvents_eq_triple (k : Nat) :
    passEvents k = tripleEvents (List.range k) := rfl

/-- A pass started from a baseline with no resident full copies keeps at
most one full copy per parameter at every visited state and ends back at
the baseline. -/
theorem pass_clean (ps : List Nat) :
    ∀ z : List Nat, (∀ c ∈ z, c = 0) →
      execEvents z (tripleEvents ps) = z ∧
      (∀ s ∈ traceStates z (tripleEvents ps), ∀ c ∈ s, c ≤ 1) := by
  induction ps with
  | nil =>
    intro z hz
    refine ⟨rfl, ?_⟩
    intro s hs c hc
    have hsz : s = z := by
      simpa [tripleEvents, traceStates] using hs
    rw [hsz] at hc
    rw [hz c hc]
    exact Nat.zero_le 1
  | cons p ps ih =>
    intro z hz
    have hstep : tripleEvents (p :: ps) =
        .gather p :: .compute p :: .release p :: tripleEvents ps := rfl
    have hs1 : stepGather z (.gather p) = z.set p 1 := by
      show z.set p (z.getD p 0 + 1) = z.set p 1
      rw [getD_zero_of_all_zero z p hz]
    refine ⟨?_, ?_⟩
    · rw [hstep]
      show execEvents
        (stepGather (stepGather (stepGather z (.gather p)) (.compute p))
          (.release p)) (tripleEvents ps) = z
      rw [hs1]
      show execEvents ((z.set p 1).set p ((z.set p 1).getD p 0 - 1))
        (tripleEvents ps) = z
      rw [gather_release z p hz]
      exact (ih z hz).1
    · rw [hstep]
      have htr : traceStates z
          (.gather p :: .compute p :: .release p :: tripleEvents ps) =
          z :: z.set p 1 :: z.set p 1 :: traceStates z (tripleEvents ps) := by
        show z :: traceStates (stepGather z (.gather p))
          (.compute p :: .release p :: tripleEvents ps) = _
        rw [hs1]
        show z :: z.set p 1 :: z.set p 1 ::
          traceStates ((z.set p 1).set p ((z.set p 1).getD p 0 - 1))
            (tripleEvents ps) = _
        rw [gather_release z p hz]
      intro s hs c hc
      rw [htr] at hs
      have hone : ∀ c' ∈ z.set p 1, c' ≤ 1 := by
        intro c' hc'
        rcases mem_set_cases z p 1 c' hc' with h | h
        · rw [hz c' h]
          exact Nat.zero_le 1
        · rw [h]
      rcases List.mem_cons.mp hs with h | hs'
      · rw [h] at hc
        rw [hz c hc]
        exact Nat.zero_le 1
      · rcases List.mem_cons.mp hs' with h | hs''
        · rw [h] at hc
          exact hone c hc
        · rcases List.mem_cons.mp hs'' with h | hs'''
          · rw [h] at hc
            exact hone c hc
          · exact (ih z hz).2 s hs''' c hc

/-- C8: under stage 3, running a pass's gather/compute/release schedule
from the baseline with no resident full copies, at most one temporary
full materialized copy of each parameter exists at any time, after the
pass completes no full materialized copy remains resident (memory
returns to the pre-gather baseline), and the consuming computation never
writes: the compute step leaves the memory state unchanged. -/
theorem stage3_gather_release (k : Nat) :
    execEvents (List.replicate k 0) (passEvents k) = List.replicate k 0 ∧
    (∀ s ∈ traceStates (List.replicate k 0) (passEvents k), ∀ c ∈ s, c ≤ 1) ∧
    (∀ copies p, stepGather copies (.compute p) = copies) := by
  have hz : ∀ c ∈ List.replicate k (0 : Nat), c = 0 := by
    intro c hc
    exact List.eq_of_mem_replicate hc
  refine ⟨?_, ?_, ?_⟩
  · rw [passEvents_eq_triple]
    exact (pass_clean (List.range k) (List.replicate k 0) hz).1
  · rw [passEvents_eq_triple]
    exact (pass_clean (List.range k) (List.replicate k 0) hz).2
  · intro copies p
    rfl

theorem stage3_gather_release_witness :
    execEvents (List.replicate 2 0) (passEvents 2) = List.replicate 2 0 ∧
    (∀ c ∈ List.replicate 2 (0 : Nat), c ≤ 1) :=
  ⟨(stage3_gather_release 2).1,
   (stage3_gather_release 2).2.1 (List.replicate 2 0) (by decide)⟩

/-- Actions a training run can take after initialization: a rank applies
a local update to the weights of its own partition, or the ranks engage
in an explicit collective communication over the full weight vector. -/
inductive RunAction where
  | localUpdate (r : Nat) (f : Nat → ℚ → ℚ)
  | collective (g : List ℚ → List ℚ)

/-- Global training-run state: the ownership table computed at
initialization, and the flattened weight vector. -/
structure RunState where
  ownership : List Partition
  weights : List ℚ

/-- Apply `f` to exactly those elements of the weight suffix starting at
flattened index `i` that partition `p` owns, leaving every other element
unchanged. -/
def updateOwned (p : Partition) (f : Nat → ℚ → ℚ) : Nat → List ℚ → List ℚ
  | _, [] => []
  | i, x :: xs =>
    (if owns p i then f i x else x) :: updateOwned p f (i + 1) xs

/-- Modelled from the spec: the shared-resource policy (§5, §9).  A
local update by rank `r` touches only the partition rank `r` owns, all
other cross-rank state transfer happens only through an explicit
collective operation, and no action touches the ownership table. -/
def applyAction (s : RunState) (a : RunAction) : RunState :=
  match a with
  | .localUpdate r f =>
    ⟨s.ownership, updateOwned (s.ownership.getD r ⟨0, 0⟩) f 0 s.weights⟩
  | .collective g => ⟨s.ownership, g s.weights⟩

/-- Run a list of actions from a state. -/
def runActions (s : RunState) : List RunAction → RunState
  | [] => s
  | a :: as => runActions (applyAction s a) as

theorem updateOwned_getD_not_owned (p : Partition) (f : Nat → ℚ → ℚ) :
    ∀ (xs : List ℚ) (i0 j : Nat), ¬ owns p (i0 + j) →
      (updateOwned p f i0 xs).getD j 0 = xs.getD j 0 := by
  intro xs
  induction xs with
  | nil =>
    intro i0 j _
    rfl
  | cons x xs ih =>
    intro i0 j hno
    cases j with
    | zero =>
      show ((if owns p i0 then f i0 x else x) :: updateOwned p f (i0 + 1) xs).getD 0 0 =
        (x :: xs).getD 0 0
      rw [List.getD_cons_zero, List.getD_cons_zero,
        if_neg (by simpa using hno)]
    | succ j =>
      show ((if owns p i0 then f i0 x else x) :: updateOwned p f (i0 + 1) xs).getD (j + 1) 0 =
        (x :: xs).getD (j + 1) 0
      rw [List.getD_cons_succ, List.getD_cons_succ]
      apply ih
      intro h
      apply hno
      have e : i0 + 1 + j = i0 + (j + 1) := by omega
      rwa [e] at h

theorem applyAction_ownership (s : RunState) (a : RunAction) :
    (applyAction s a).ownership = s.ownership := by
  cases a with
  | localUpdate r f => rfl
  | collective g => rfl

theorem runActions_ownership (acts : List RunAction) :
    ∀ s : RunState, (runActions s acts).ownership = s.ownership := by
  induction acts with
  | nil =>
    intro s
    rfl
  | cons a as ih =>
    intro s
    show (runActions (applyAction s a) as).ownership = s.ownership
    rw [ih (applyAction s a), applyAction_ownership]

/-- C9: in every reachable state of a training run the ownership table
equals the one computed at initialization (it is never mutated), a local
update by rank `r` leaves every flattened index outside rank `r`'s
partition unchanged (partition ownership is the sole mutation
authority), and in particular under a Partition Planner assignment an
index owned by another rank `r' ≠ r` is never mutated directly by rank
`r` — all other cross-rank transfer is an explicit collective action. -/
theorem ownership_sole_authority (w0 : List ℚ) (parts : List Partition)
    (acts : List RunAction) :
    (runActions ⟨parts, w0⟩ acts).ownership = parts ∧
    (∀ s : RunState, ∀ r i, ∀ f, ¬ owns (s.ownership.getD r ⟨0, 0⟩) i →
      (applyAction s (.localUpdate r f)).weights.getD i 0 =
        s.weights.getD i 0) ∧
    (∀ params world_size, planPartitions params world_size = .ok parts →
      ∀ r r' i f, r' < parts.length → r < parts.length → r' ≠ r →
        owns (parts.getD r' ⟨0, 0⟩) i →
        (applyAction (runActions ⟨parts, w0⟩ acts)
            (.localUpdate r f)).weights.getD i 0 =
          (runActions ⟨parts, w0⟩ acts).weights.getD i 0) := by
  have hown : (runActions ⟨parts, w0⟩ acts).ownership = parts :=
    runActions_ownership acts ⟨parts, w0⟩
  have hlocal : ∀ s : RunState, ∀ r i, ∀ f,
      ¬ owns (s.ownership.getD r ⟨0, 0⟩) i →
      (applyAction s (.localUpdate r f)).weights.getD i 0 =
        s.weights.getD i 0 := by
    intro s r i f hno
    show (updateOwned (s.ownership.getD r ⟨0, 0⟩) f 0 s.weights).getD i 0 =
      s.weights.getD i 0
    apply updateOwned_getD_not_owned
    simpa using hno
  refine ⟨hown, hlocal, ?_⟩
  intro params world_size hplan r r' i f hr' hr hne howns
  apply hlocal
  rw [hown]
  obtain ⟨hw, hparts⟩ := planPartitions_ok params world_size parts hplan
  subst hparts
  rw [planRanges_length] at hr hr'
  rw [planRanges_getD _ _ _ hr'] at howns
  rw [planRanges_getD _ _ _ hr]
  intro hcontra
  apply hne
  exact owner_unique _ _
    ⟨howns.1, by rw [partStart_succ]; exact howns.2⟩
    ⟨hcontra.1, by rw [partStart_succ]; exact hcontra.2⟩

theorem ownership_sole_authority_witness :
    (applyAction (runActions ⟨demoParts, []⟩ [])
        (.localUpdate 0 (fun _ x => x + 1))).weights.getD 25 0 =
      (runActions ⟨demoParts, []⟩ []).weights.getD 25 0 :=
  (ownership_sole_authority [] demoParts []).2.2 demoParams 2 rfl 0 1 25
    (fun _ x => x + 1) (by decide) (by decide) (by decide) (by decide)

/-- os.getenv with a default: the variable's string value when set in
the process environment (an association list), otherwise the default
string. -/
def getenvD (env : List (String × String)) (key dflt : String) : String :=
  match env.lookup key with
  | some v => v
  | none => dflt

/-- Whitespace characters stripped by Python's int(). -/
def isSpace (c : Char) : Bool :=
  c = ' ' || c = '\t' || c = '\n' || c = '\r'

/-- Decimal digit value of a character, if it is a digit. -/
def digitVal (c : Char) : Option Nat :=
  if 48 ≤ c.toNat ∧ c.toNat ≤ 57 then some (c.toNat - 48) else none

/-- Accumulate a run of decimal digits, failing on a non-digit. -/
def parseDigitsAux : List Char → Nat → Option Nat
  | [], acc => some acc
  | c :: cs, acc =>
    match digitVal c with
    | some d => parseDigitsAux cs (acc * 10 + d)
    | none => none

/-- Parse a non-empty run of decimal digits. -/
def parseNat : List Char → Option Nat
  | [] => none
  | cs => parseDigitsAux cs 0

/-- Parse an optionally signed decimal integer. -/
def parseSigned : List Char → Option Int
  | '-' :: rest => (parseNat rest).map (fun n => -(n : Int))
  | '+' :: rest => (parseNat rest).map (fun n => (n : Int))
  | cs => (parseNat cs).map (fun n => (n : Int))

/-- Python's int() applied to a string: parse an optionally signed
decimal integer after stripping surrounding whitespace, failing on
anything else. -/
def pyInt (s : String) : Option Int :=
  parseSigned ((s.data.dropWhile isSpace).reverse.dropWhile isSpace).reverse

/-- From the tutorial notebooks (summarization and translation example
snippets): local_rank = int(os.getenv('LOCAL_RANK', '0')). -/
def local_rank (env : List (String × String)) : Option Int :=
  pyInt (getenvD env "LOCAL_RANK" "0")

/-- From the tutorial notebooks: world_size =
int(os.getenv('WORLD_SIZE', '4')). -/
def world_size (env : List (String × String)) : Option Int :=
  pyInt (getenvD env "WORLD_SIZE" "4")

/-- From the tutorial notebooks: the mp_size argument passed to
deepspeed.init_inference is the world_size value. -/
def mp_size (env : List (String × String)) : Option Int :=
  world_size env

/-- C10: in the summarization and translation example programs, when
LOCAL_RANK is unset local_rank evaluates to 0, and when WORLD_SIZE is
unset world_size evaluates to 4; when either variable is set the
corresponding value is the integer parse of the variable's string
value; and the mp_size passed to inference initialization equals
world_size. -/
theorem env_rank_world_defaults (env : List (String × String)) :
    (env.lookup "LOCAL_RANK" = none → local_rank env = some 0) ∧
    (env.lookup "WORLD_SIZE" = none → world_size env = some 4) ∧
    (∀ s, env.lookup "LOCAL_RANK" = some s → local_rank env = pyInt s) ∧
    (∀ s, env.lookup "WORLD_SIZE" = some s → world_size env = pyInt s) ∧
    mp_size env = world_size env := by
  refine ⟨?_, ?_, ?_, ?_, rfl⟩
  · intro h
    unfold local_rank getenvD
    rw [h]
    decide
  · intro h
    unfold world_size getenvD
    rw [h]
    decide
  · intro s h
    unfold local_rank getenvD
    rw [h]
  · intro s h
    unfold world_size getenvD
    rw [h]

theorem env_rank_world_defaults_witness :
    (local_rank [] = some 0 ∧ world_size [] = some 4) ∧
    (local_rank [("LOCAL_RANK", "2")] = pyInt "2" ∧
      world_size [("WORLD_SIZE", "8")] = pyInt "8") ∧
    mp_size [] = world_size [] :=
  ⟨⟨(env_rank_world_defaults []).1 rfl, (env_rank_world_defaults []).2.1 rfl⟩,
   ⟨(env_rank_world_defaults [("LOCAL_RANK", "2")]).2.2.1 "2" rfl,
    (env_rank_world_defaults [("WORLD_SIZE", "8")]).2.2.2.1 "8" rfl⟩,
   (env_rank_world_defaults []).2.2.2.2⟩
